import Mathlib

/-!
Verification of the Margarita-Image-Gen repository (files
`src/WebScapper.py` and `src/enhanced_bing.py`, which contain identical
copies of the routines treated here).

The development shallowly embeds:

* `ImageProcessor.get_image_urls` — the bounded result poller.  The
  browser interactions are abstracted into a schedule of polling rounds:
  the list entry `rounds[k]` is the list of `src` attribute values the
  `find_elements` / `get_attribute` calls produce on the `k`-th loop
  iteration that the wall clock admits (an attribute read of `None`
  is modelled as the empty string, since both are falsy under the
  Python test `if src and ...`).  Real time does not appear: the length
  of the schedule encodes how many iterations run before the 60 s
  budget elapses, and the instrumented variant counts the executed
  `time.sleep(2)` calls.
* `ImageGenerator.switch_to_prompt_frame` and
  `AuthenticationManager._get_prompt_input_element` — the frame-scoped
  element locators.  A page state records whether the selector is
  present in the main document and, per iframe, whether switching into
  the frame succeeds and what the presence lookup inside it yields
  (`none` modelling a raised exception).
* `CookieManager.load_cookies` — the per-cookie-record rewriting, with a
  cookie record embedded as an association list of string keys/values
  (a Python `dict` restricted to the string-valued fields the code
  inspects).
* `ImageProcessor.to_kebab_case` — on `List Char`, with Python's `re`
  character classes (`\w`, `\s`) and the one-to-many `str.lower`
  mapping modelled faithfully on all of ASCII and on the two non-ASCII
  characters U+0130 / U+0307 that decide idempotence.
-/

/-! ## Bounded result poller: `ImageProcessor.get_image_urls` -/

/-- Python `str.startswith`: the argument is a prefix of the string's
character sequence. -/
def strStartsWith (s pre : String) : Bool :=
  pre.data.isPrefixOf s.data

/-- The body of the `for elem in image_elements:` loop of
`get_image_urls`: starting from the accumulator `urls`, append `src`
when `src and (src.startswith("http") or src.startswith("blob:")) and
src not in urls`. -/
def collectUrls (urls : List String) : List String → List String
  | [] => urls
  | src :: rest =>
    if src ≠ "" ∧ (strStartsWith src "http" = true ∨ strStartsWith src "blob:" = true) ∧ src ∉ urls then
      collectUrls (urls ++ [src]) rest
    else
      collectUrls urls rest

/-- The `while time.time() - start_time < poll_timeout:` loop of
`get_image_urls`.  Each round resets `urls = []`, filters the round's
candidates, breaks when at least 4 valid URLs were collected, and
otherwise sleeps and retries; when the schedule is exhausted (the time
budget has elapsed) the `urls` value of the last executed round is
kept. -/
def pollLoop (urls : List String) : List (List String) → List String
  | [] => urls
  | r :: rest =>
    let urls' := collectUrls [] r
    if 4 ≤ urls'.length then urls'
    else pollLoop urls' rest

/-- `ImageProcessor.get_image_urls` (WebScapper.py lines 273–299,
enhanced_bing.py lines 333–359): run the poll loop with `urls = []`,
then pad with empty strings while `len(urls) < 4` and return
`urls[:4]`. -/
def get_image_urls (rounds : List (List String)) : List String :=
  let urls := pollLoop [] rounds
  (urls ++ List.replicate (4 - urls.length) "").take 4

/-- The URL-validity test of the poller, as one predicate: the Python
condition `src and (src.startswith("http") or src.startswith("blob:"))`. -/
def validUrl (src : String) : Bool :=
  src ≠ "" && (strStartsWith src "http" || strStartsWith src "blob:")

/-- Deduplication keeping the first occurrence, written from the spec's
words "Deduplicate while preserving first-seen order" for comparison
with the loop the code actually runs. -/
def dedupFirstSeen (seen : List String) : List String → List String
  | [] => []
  | x :: rest =>
    if x ∈ seen then dedupFirstSeen seen rest
    else x :: dedupFirstSeen (seen ++ [x]) rest

/-! ## Poller with failing extraction rounds

`get_image_urls` contains no `try`/`except`: an exception raised by
`find_elements` or `get_attribute` inside the poll loop propagates to
the caller.  This variant makes each round an `Except`: `.error e`
models the extraction call raising, `.ok cands` a normal read. -/

/-- The poll loop of `get_image_urls` when a round may raise: the body
has no exception handler, so a raising round aborts the loop and the
exception propagates. -/
def pollLoopExc (urls : List String) :
    List (Except String (List String)) → Except String (List String)
  | [] => .ok urls
  | .error e :: _ => .error e
  | .ok r :: rest =>
    let urls' := collectUrls [] r
    if 4 ≤ urls'.length then .ok urls'
    else pollLoopExc urls' rest

/-- `get_image_urls` with possibly-raising extraction rounds: padding
and truncation happen only when the loop finishes without raising. -/
def get_image_urlsExc (rounds : List (Except String (List String))) :
    Except String (List String) :=
  match pollLoopExc [] rounds with
  | .error e => .error e
  | .ok urls => .ok ((urls ++ List.replicate (4 - urls.length) "").take 4)

/-! ## Poller instrumented with its sleep count

Identical control flow to `pollLoop`; additionally returns how many
times the `time.sleep(2)` at the bottom of the loop body ran. -/

/-- The poll loop of `get_image_urls`, also counting executed
`time.sleep(2)` calls: the sleep runs exactly when a round ends with
fewer than 4 valid URLs. -/
def pollLoopSleeps (urls : List String) (sleeps : Nat) :
    List (List String) → List String × Nat
  | [] => (urls, sleeps)
  | r :: rest =>
    let urls' := collectUrls [] r
    if 4 ≤ urls'.length then (urls', sleeps)
    else pollLoopSleeps urls' (sleeps + 1) rest

/-! ## Frame-scoped element locator -/

/-- A browsing context: the main document or the iframe at a given
index of the `find_elements(By.TAG_NAME, "iframe")` snapshot. -/
inductive Ctx where
  | main : Ctx
  | frame : Nat → Ctx
deriving DecidableEq, Repr

/-- Observable behaviour of one iframe during the search:
`switchOk = false` models `switch_to.frame(iframe)` raising;
`found = none` models the presence lookup inside the frame raising,
`found = some b` the lookup returning normally with presence `b`. -/
structure FrameSpec where
  switchOk : Bool
  found : Option Bool
deriving DecidableEq, Repr

/-- A page state at call time: whether the selector is present in the
main document, and the behaviour of each iframe of the snapshot, in
DOM order. -/
structure PageState where
  mainHas : Bool
  frames : List FrameSpec
deriving DecidableEq, Repr

/-- The `for iframe in iframes:` loop shared by
`switch_to_prompt_frame` and `_get_prompt_input_element`: try to switch
into the frame (an exception is swallowed), test presence (an exception
is swallowed); on success return with that frame active, otherwise
switch back to the default content and continue; after the loop, switch
to the default content and report failure.  Returns the success flag
and the browsing context active on return. -/
def framesLoop : List FrameSpec → Nat → Bool × Ctx
  | [], _ => (false, Ctx.main)
  | f :: rest, i =>
    if f.switchOk then
      match f.found with
      | some true => (true, Ctx.frame i)
      | _ => framesLoop rest (i + 1)
    else
      framesLoop rest (i + 1)

/-- `ImageGenerator.switch_to_prompt_frame` (WebScapper.py lines
383–405, enhanced_bing.py lines 438–460): reset to default content,
test the main document, then scan the iframes; returns the boolean
result together with the context left active. -/
def switch_to_prompt_frame (p : PageState) : Bool × Ctx :=
  if p.mainHas then (true, Ctx.main)
  else framesLoop p.frames 0

/-- `AuthenticationManager._get_prompt_input_element` (WebScapper.py
lines 206–231): the same search, but the not-found case raises
`Exception(...)` after switching back to default content, and success
returns the element found in the active context.  The result is the
`Except` outcome paired with the context active on return. -/
def get_prompt_input_element (p : PageState) : Except String Ctx × Ctx :=
  if p.mainHas then (Except.ok Ctx.main, Ctx.main)
  else
    match framesLoop p.frames 0 with
    | (true, c) => (Except.ok c, c)
    | (false, _) =>
      (Except.error "Could not locate prompt input element in default content or any iframes.",
       Ctx.main)

/-- The contexts in which the selector is present (a lookup that raises
counts as not present), in search order. -/
def framePresentCtxs : List FrameSpec → Nat → List Ctx
  | [], _ => []
  | f :: rest, i =>
    (if f.found = some true then [Ctx.frame i] else []) ++ framePresentCtxs rest (i + 1)

/-- All contexts of the page state containing the target selector. -/
def presentCtxs (p : PageState) : List Ctx :=
  (if p.mainHas then [Ctx.main] else []) ++ framePresentCtxs p.frames 0

/-! ## Cookie record rewriting: `CookieManager.load_cookies` -/

/-- A cookie record: a Python `dict` with string keys, restricted to
string values (the only values the rewriting inspects), embedded as an
association list with unique keys. -/
abbrev CookieRec := List (String × String)

/-- Python `cookie.get(k)` / `k in cookie`: the value at a key. -/
def getVal (k : String) : CookieRec → Option String
  | [] => none
  | (k', v) :: rest => if k' = k then some v else getVal k rest

/-- Removal of a key (`cookie.pop(k)` discarding the result). -/
def eraseKey (c : CookieRec) (k : String) : CookieRec :=
  c.filter (fun p => p.1 ≠ k)

/-- Python `cookie[k] = v`: the mapping afterwards sends `k` to `v` and
every other key to its previous value (insertion order, which the code
never relies on, is not preserved). -/
def setVal (c : CookieRec) (k v : String) : CookieRec :=
  eraseKey c k ++ [(k, v)]

/-- The key set Selenium accepts, from `load_cookies`. -/
def allowedKeys : List String :=
  ["name", "value", "path", "domain", "secure", "expiry"]

/-- First step of the loop body of `CookieManager.load_cookies`:
`if 'expires' in cookie: cookie['expiry'] = cookie.pop('expires')`. -/
def renameExpires (c : CookieRec) : CookieRec :=
  match getVal "expires" c with
  | some v => setVal (eraseKey c "expires") "expiry" v
  | none => c

/-- Second step: `if cookie.get("domain", "").startswith("."):
cookie["domain"] = "www.bing.com"`. -/
def fixDomain (c : CookieRec) : CookieRec :=
  if strStartsWith ((getVal "domain" c).getD "") "." then
    setVal c "domain" "www.bing.com"
  else c

/-- The per-record body of the `for cookie in cookies:` loop of
`CookieManager.load_cookies` (WebScapper.py lines 171–187,
enhanced_bing.py lines 251–267): rename `expires` to `expiry`, rewrite
a domain starting with `"."` to `"www.bing.com"`, then keep only the
allowed keys (`filtered_cookie = ...`). -/
def processCookie (c : CookieRec) : CookieRec :=
  (fixDomain (renameExpires c)).filter (fun p => allowedKeys.contains p.1)

/-! ## `ImageProcessor.to_kebab_case`

The function body is
`text = re.sub(r'[^\w\s-]', '', text.strip())`,
`text = re.sub(r'[-\s]+', '-', text)`, `return text.lower()`.
It is embedded on `List Char` with Python's Unicode semantics modelled
faithfully on all of ASCII (code points below 128) and on the two
non-ASCII characters U+0130 and U+0307 that decide idempotence:
`str.lower` maps one character to a character *sequence* (the mapping
of U+0130 LATIN CAPITAL LETTER I WITH DOT ABOVE is the two-character
sequence `i` + U+0307, per the Unicode SpecialCasing data CPython
implements), U+0130 is an uppercase letter and hence in `\w`, U+0307
COMBINING DOT ABOVE (category Mn) is not in `\w`, and `\s` /
`str.strip` cover the ten ASCII whitespace characters including
`\x1c`–`\x1f`.  Other non-ASCII characters are outside the modelled
fragment. -/

/-- Python's `\s` class, which is also the set `str.strip` removes
(both use `Py_UNICODE_ISSPACE`), restricted to ASCII where it is the
ten characters space, `\t`, `\n`, `\r`, `\x0b`, `\x0c` and
`\x1c`–`\x1f`; U+0130 and U+0307 are not whitespace. -/
def isSpaceChar (c : Char) : Bool :=
  c.toNat == 32 || c.toNat == 9 || c.toNat == 10 || c.toNat == 13 ||
  c.toNat == 11 || c.toNat == 12 || (28 ≤ c.toNat && c.toNat ≤ 31)

/-- Python's `\w` class on the modelled fragment: on ASCII it is
`[a-zA-Z0-9_]`; U+0130 (code 304) is an uppercase letter, hence a word
character; U+0307 (code 775, a nonspacing mark) is not alphanumeric in
the Unicode database and hence not a word character. -/
def isWordChar (c : Char) : Bool :=
  (97 ≤ c.toNat && c.toNat ≤ 122) || (65 ≤ c.toNat && c.toNat ≤ 90) ||
  (48 ≤ c.toNat && c.toNat ≤ 57) || c.toNat == 95 || c.toNat == 304

/-- The class `[-\s]` of the second substitution. -/
def isDashSpace (c : Char) : Bool :=
  c.toNat == 45 || isSpaceChar c

/-- The single-character ASCII case map `A`–`Z` to `a`–`z` (a helper:
the embedding of `str.lower` itself is `lowerCharStr` below, which can
return more than one character). -/
def asciiLowerChar (c : Char) : Char :=
  if 65 ≤ c.toNat && c.toNat ≤ 90 then Char.ofNat (c.toNat + 32) else c

/-- Python `str.lower` on one character of the modelled fragment: the
full lowercase mapping sends a character to a character sequence, and
U+0130 maps to the two-character sequence `i` + U+0307 (code 775). -/
def lowerCharStr (c : Char) : List Char :=
  if 65 ≤ c.toNat && c.toNat ≤ 90 then [Char.ofNat (c.toNat + 32)]
  else if c.toNat == 304 then [Char.ofNat 105, Char.ofNat 775]
  else [c]

/-- Python `str.lower` on a string: concatenation of the per-character
lowercase sequences. -/
def strLower : List Char → List Char
  | [] => []
  | c :: rest => lowerCharStr c ++ strLower rest

/-- Python `text.strip()`: drop whitespace from both ends. -/
def stripChars (l : List Char) : List Char :=
  ((l.dropWhile isSpaceChar).reverse.dropWhile isSpaceChar).reverse

/-- `re.sub(r'[^\w\s-]', '', text)`: delete every character outside
`[\w\s-]`. -/
def removeDisallowed (l : List Char) : List Char :=
  l.filter (fun c => isWordChar c || isSpaceChar c || c.toNat == 45)

/-- `re.sub(r'[-\s]+', '-', text)`: replace each maximal run of
characters of class `[-\s]` by a single dash.  The flag records whether
the previous character belonged to the current run. -/
def collapseRuns (inRun : Bool) : List Char → List Char
  | [] => []
  | c :: rest =>
    if isDashSpace c then
      if inRun then collapseRuns true rest
      else '-' :: collapseRuns true rest
    else c :: collapseRuns false rest

/-- `ImageProcessor.to_kebab_case` (WebScapper.py lines 257–261,
enhanced_bing.py lines 311–315) on `List Char`. -/
def to_kebab_case (s : List Char) : List Char :=
  strLower (collapseRuns false (removeDisallowed (stripChars s)))

/-! ## Poller lemmas -/

/-- The returned list always has length exactly 4 (shared helper). -/
theorem get_image_urls_length_eq (rounds : List (List String)) :
    (get_image_urls rounds).length = 4 := by
  unfold get_image_urls
  simp only [List.length_take, List.length_append, List.length_replicate]
  omega

theorem pollLoopExc_map_ok (rounds : List (List String)) :
    ∀ u, pollLoopExc u (rounds.map Except.ok) = Except.ok (pollLoop u rounds) := by
  induction rounds with
  | nil => intro u; rfl
  | cons r rest ih =>
    intro u
    simp only [List.map_cons, pollLoopExc, pollLoop]
    split
    · rfl
    · exact ih _

theorem collectUrls_eq_dedup_filter (r : List String) :
    ∀ acc, collectUrls acc r = acc ++ dedupFirstSeen acc (r.filter validUrl) := by
  induction r with
  | nil => intro acc; simp [collectUrls, dedupFirstSeen]
  | cons src rest ih =>
    intro acc
    by_cases hv : validUrl src = true
    · have hv' : src ≠ "" ∧ (strStartsWith src "http" = true ∨ strStartsWith src "blob:" = true) := by
        simpa [validUrl] using hv
      by_cases hmem : src ∈ acc
      · rw [List.filter_cons, if_pos hv]
        simp only [collectUrls, dedupFirstSeen]
        rw [if_neg (fun hc => hc.2.2 hmem), if_pos hmem]
        exact ih acc
      · rw [List.filter_cons, if_pos hv]
        simp only [collectUrls, dedupFirstSeen]
        rw [if_pos ⟨hv'.1, hv'.2, hmem⟩, if_neg hmem, ih (acc ++ [src])]
        simp
    · have hv2 : ¬(src ≠ "" ∧ (strStartsWith src "http" = true ∨ strStartsWith src "blob:" = true) ∧ src ∉ acc) := by
        intro hc
        refine hv ?_
        simp only [validUrl, Bool.and_eq_true, decide_eq_true_eq, Bool.or_eq_true]
        exact ⟨hc.1, hc.2.1⟩
      rw [List.filter_cons, if_neg (by simpa using hv)]
      simp only [collectUrls]
      rw [if_neg hv2]
      exact ih acc

theorem collectUrls_nodup (r : List String) :
    ∀ acc, acc.Nodup → (collectUrls acc r).Nodup := by
  induction r with
  | nil => intro acc h; exact h
  | cons src rest ih =>
    intro acc h
    unfold collectUrls
    split
    · rename_i hcond
      exact ih _ (by simp [List.nodup_append, h, hcond.2.2])
    · exact ih acc h

theorem pollLoop_nodup (rounds : List (List String)) :
    ∀ urls : List String, urls.Nodup → (pollLoop urls rounds).Nodup := by
  induction rounds with
  | nil => intro urls h; exact h
  | cons r rest ih =>
    intro urls h
    by_cases h4 : 4 ≤ (collectUrls [] r).length
    · simpa [pollLoop, h4] using collectUrls_nodup r [] List.nodup_nil
    · simpa [pollLoop, h4] using ih _ (collectUrls_nodup r [] List.nodup_nil)

theorem pollLoopSleeps_stops (r : List String) (post : List (List String))
    (hr : 4 ≤ (collectUrls [] r).length) :
    ∀ (pre : List (List String)), (∀ p ∈ pre, (collectUrls [] p).length < 4) →
      ∀ (u : List String) (s : Nat),
        pollLoopSleeps u s (pre ++ r :: post) = (collectUrls [] r, s + pre.length) := by
  intro pre
  induction pre with
  | nil =>
    intro _ u s
    simp [pollLoopSleeps, hr]
  | cons p pre ih =>
    intro hpre u s
    have hp := hpre p (by simp)
    simp only [List.cons_append, pollLoopSleeps, List.append_eq]
    rw [if_neg (by omega)]
    rw [ih (fun q hq => hpre q (by simp [hq])) _ _]
    simp only [List.length_cons]
    congr 1
    omega

/-! ## Poller claims -/

/-- C1: for every extraction sequence and schedule of polling rounds,
the sequence returned by `get_image_urls` has length exactly 4; it is
the found URLs padded with empty strings when fewer than 4 were found
and truncated to the first 4 when more were found. -/
theorem get_image_urls_pad_truncate (rounds : List (List String)) :
    (get_image_urls rounds).length = 4 ∧
    ((pollLoop [] rounds).length < 4 →
      get_image_urls rounds =
        pollLoop [] rounds ++ List.replicate (4 - (pollLoop [] rounds).length) "") ∧
    (4 ≤ (pollLoop [] rounds).length →
      get_image_urls rounds = (pollLoop [] rounds).take 4) := by
  refine ⟨get_image_urls_length_eq rounds, fun h => ?_, fun h => ?_⟩
  · simp only [get_image_urls]
    refine List.take_of_length_le ?_
    simp only [List.length_append, List.length_replicate]
    omega
  · simp only [get_image_urls]
    rw [Nat.sub_eq_zero_of_le h]
    simp

/-- Witness for C1 at a one-round schedule yielding a single valid URL. -/
theorem get_image_urls_pad_truncate_witness :
    get_image_urls [["http://a"]] = ["http://a", "", "", ""] := by
  have h := (get_image_urls_pad_truncate [["http://a"]]).2.1 (by decide)
  rw [h]
  decide

/-- C2 counterexample: the poller is not failure-free — an extraction
round that raises propagates its error out of `get_image_urls` instead
of being treated as "no data this round". -/
theorem get_image_urls_error_propagates :
    get_image_urlsExc [Except.error "WebDriverException"] =
      Except.error "WebDriverException" := rfl

/-- C2 (amended): `get_image_urls` has no exception handling around
extraction, so a raising round aborts the poll; when no round raises,
the poller never fails and timeout degrades to a padded length-4
result. -/
theorem get_image_urls_ok_when_no_round_raises (rounds : List (List String)) :
    get_image_urlsExc (rounds.map Except.ok) = Except.ok (get_image_urls rounds) ∧
    (get_image_urls rounds).length = 4 := by
  refine ⟨?_, get_image_urls_length_eq rounds⟩
  simp only [get_image_urlsExc, get_image_urls, pollLoopExc_map_ok]

/-- C6: within a round the values kept are exactly the valid ones
(non-empty, `http`/`blob:` prefix), deduplicated preserving first-seen
order, and the final result never contains a non-empty URL twice. -/
theorem poller_filter_dedup (r : List String) (rounds : List (List String)) (u : String) :
    collectUrls [] r = dedupFirstSeen [] (r.filter validUrl) ∧
    (u ≠ "" → (get_image_urls rounds).count u ≤ 1) := by
  constructor
  · simpa using collectUrls_eq_dedup_filter r []
  · intro hu
    have hnodup : (pollLoop [] rounds).Nodup := pollLoop_nodup rounds [] List.nodup_nil
    have hsub : (get_image_urls rounds).Sublist
        (pollLoop [] rounds ++ List.replicate (4 - (pollLoop [] rounds).length) "") := by
      simpa [get_image_urls] using
        List.take_sublist 4
          (pollLoop [] rounds ++ List.replicate (4 - (pollLoop [] rounds).length) "")
    have h1 := hsub.count_le u
    rw [List.count_append] at h1
    have h2 : (List.replicate (4 - (pollLoop [] rounds).length) "").count u = 0 := by
      have hne : ("" : String) ≠ u := fun h => hu h.symm
      simp [List.count_replicate, hne]
    have h3 : (pollLoop [] rounds).count u ≤ 1 :=
      List.nodup_iff_count_le_one.mp hnodup u
    omega

/-- Witness for C6 at a round repeating one URL. -/
theorem poller_filter_dedup_witness :
    collectUrls [] ["http://a", "http://a"] =
      dedupFirstSeen [] (["http://a", "http://a"].filter validUrl) ∧
    (get_image_urls [["http://a", "http://a"]]).count "http://a" ≤ 1 :=
  ⟨(poller_filter_dedup ["http://a", "http://a"] [["http://a", "http://a"]] "http://a").1,
   (poller_filter_dedup ["http://a", "http://a"] [["http://a", "http://a"]] "http://a").2
     (by decide)⟩

/-- C7: a first round yielding `["http://a", "http://a", "blob:b", "",
"http://c"]` followed by any number of rounds re-reading the same data
until the time budget elapses returns
`["http://a", "blob:b", "http://c", ""]`. -/
theorem get_image_urls_example_round (n : Nat) :
    get_image_urls
        (List.replicate (n + 1) ["http://a", "http://a", "blob:b", "", "http://c"]) =
      ["http://a", "blob:b", "http://c", ""] := by
  have hc : collectUrls [] ["http://a", "http://a", "blob:b", "", "http://c"] =
      ["http://a", "blob:b", "http://c"] := by decide
  have aux : ∀ m (u : List String),
      pollLoop u (List.replicate (m + 1) ["http://a", "http://a", "blob:b", "", "http://c"]) =
        ["http://a", "blob:b", "http://c"] := by
    intro m
    induction m with
    | zero =>
      intro u
      rw [List.replicate_one]
      simp [pollLoop, hc]
    | succ k ih =>
      intro u
      rw [List.replicate_succ]
      simp only [pollLoop, hc]
      rw [if_neg (by decide)]
      exact ih ["http://a", "blob:b", "http://c"]
  simp only [get_image_urls]
  rw [aux n []]
  decide

/-- C8: whenever a round yields at least 4 valid URLs, the poll loop
stops right after that round — later rounds are never read and
`time.sleep(poll_interval)` runs exactly once per earlier
(unsatisfied) round, never after the threshold round, including when
the threshold round is the last one the time budget admits. -/
theorem poll_stops_at_threshold (pre post : List (List String)) (r : List String)
    (hpre : ∀ p ∈ pre, (collectUrls [] p).length < 4)
    (hr : 4 ≤ (collectUrls [] r).length) :
    pollLoopSleeps [] 0 (pre ++ r :: post) = (collectUrls [] r, pre.length) := by
  simpa using pollLoopSleeps_stops r post hr pre hpre [] 0

/-- Witness for C8: one unsatisfied round, then a round with 4 valid
URLs as the last admitted attempt. -/
theorem poll_stops_at_threshold_witness :
    pollLoopSleeps [] 0 ([[""]] ++ ["http://1", "http://2", "http://3", "http://4"] :: []) =
      (collectUrls [] ["http://1", "http://2", "http://3", "http://4"], 1) :=
  poll_stops_at_threshold [[""]] [] ["http://1", "http://2", "http://3", "http://4"]
    (by decide) (by decide)

/-! ## Locator lemmas -/

theorem framesLoop_of_presentCtxs_single (fs : List FrameSpec) :
    ∀ (i : Nat) (c : Ctx), (∀ f ∈ fs, f.switchOk = true) →
      framePresentCtxs fs i = [c] → framesLoop fs i = (true, c) := by
  induction fs with
  | nil => intro i c _ h; simp [framePresentCtxs] at h
  | cons f rest ih =>
    intro i c hsw h
    have hswf : f.switchOk = true := hsw f (by simp)
    by_cases hf : f.found = some true
    · have hrest : framePresentCtxs rest (i + 1) = [] := by
        simp only [framePresentCtxs, hf, if_pos] at h
        simpa using (List.cons_eq_cons.mp (by simpa using h)).2.symm
      have hc : c = Ctx.frame i := by
        simp only [framePresentCtxs, hf, if_pos] at h
        exact ((List.cons_eq_cons.mp (by simpa using h)).1).symm
      simp [framesLoop, hswf, hf, hc]
    · have h' : framePresentCtxs rest (i + 1) = [c] := by
        simpa [framePresentCtxs, hf] using h
      have := ih (i + 1) c (fun g hg => hsw g (by simp [hg])) h'
      cases hfv : f.found with
      | none => simpa [framesLoop, hswf, hfv] using this
      | some b =>
        cases b with
        | false => simpa [framesLoop, hswf, hfv] using this
        | true => exact absurd hfv hf

theorem framesLoop_of_presentCtxs_nil (fs : List FrameSpec) :
    ∀ (i : Nat), framePresentCtxs fs i = [] → framesLoop fs i = (false, Ctx.main) := by
  induction fs with
  | nil => intro i _; rfl
  | cons f rest ih =>
    intro i h
    have hf : ¬f.found = some true := by
      intro hf
      simp [framePresentCtxs, hf] at h
    have hrest : framePresentCtxs rest (i + 1) = [] := by
      simpa [framePresentCtxs, hf] using h
    cases hsw : f.switchOk with
    | false => simpa [framesLoop, hsw] using ih (i + 1) hrest
    | true =>
      cases hfv : f.found with
      | none => simpa [framesLoop, hsw, hfv] using ih (i + 1) hrest
      | some b =>
        cases b with
        | false => simpa [framesLoop, hsw, hfv] using ih (i + 1) hrest
        | true => exact absurd hfv hf

theorem framesLoop_false_ctx_main (fs : List FrameSpec) :
    ∀ (i : Nat), (framesLoop fs i).1 = false → (framesLoop fs i).2 = Ctx.main := by
  induction fs with
  | nil => intro i _; rfl
  | cons f rest ih =>
    intro i h
    cases hsw : f.switchOk with
    | false =>
      rw [show framesLoop (f :: rest) i = framesLoop rest (i + 1) by simp [framesLoop, hsw]]
      rw [show framesLoop (f :: rest) i = framesLoop rest (i + 1) by simp [framesLoop, hsw]] at h
      exact ih (i + 1) h
    | true =>
      cases hfv : f.found with
      | none =>
        rw [show framesLoop (f :: rest) i = framesLoop rest (i + 1) by simp [framesLoop, hsw, hfv]] at h ⊢
        exact ih (i + 1) h
      | some b =>
        cases b with
        | false =>
          rw [show framesLoop (f :: rest) i = framesLoop rest (i + 1) by
                simp [framesLoop, hsw, hfv]] at h ⊢
          exact ih (i + 1) h
        | true =>
          rw [show framesLoop (f :: rest) i = (true, Ctx.frame i) by
                simp [framesLoop, hsw, hfv]] at h
          simp at h

theorem framesLoop_erroring_frame_skipped (f : FrameSpec)
    (hf : f.switchOk = false ∨ f.found = none) (post : List FrameSpec) :
    ∀ (pre : List FrameSpec) (i : Nat),
      framesLoop (pre ++ f :: post) i =
        framesLoop (pre ++ ⟨true, some false⟩ :: post) i := by
  intro pre
  induction pre with
  | nil =>
    intro i
    rcases hf with hsw | hfv
    · simp [framesLoop, hsw]
    · cases hsw : f.switchOk with
      | false => simp [framesLoop, hsw]
      | true => simp [framesLoop, hsw, hfv]
  | cons g rest ih =>
    intro i
    cases hsw : g.switchOk with
    | false => simp [framesLoop, hsw, ih]
    | true =>
      cases hfv : g.found with
      | none => simp [framesLoop, hsw, hfv, ih]
      | some b =>
        cases b with
        | false => simp [framesLoop, hsw, hfv, ih]
        | true => simp [framesLoop, hsw, hfv]

/-! ## Locator claims -/

/-- C3: when the target selector is present in exactly one context
(the main document or exactly one iframe) and no frame switch raises,
both locators succeed and leave that context active on return. -/
theorem locate_unique_context (p : PageState) (c : Ctx)
    (hsw : ∀ f ∈ p.frames, f.switchOk = true)
    (h : presentCtxs p = [c]) :
    switch_to_prompt_frame p = (true, c) ∧
    get_prompt_input_element p = (Except.ok c, c) := by
  by_cases hm : p.mainHas
  · have hp : Ctx.main :: framePresentCtxs p.frames 0 = [c] := by
      simpa [presentCtxs, hm] using h
    have h1 : Ctx.main = c := (List.cons_eq_cons.mp hp).1
    simp [switch_to_prompt_frame, get_prompt_input_element, hm, ← h1]
  · have h' : framePresentCtxs p.frames 0 = [c] := by
      simpa [presentCtxs, hm] using h
    have hl := framesLoop_of_presentCtxs_single p.frames 0 c hsw h'
    simp [switch_to_prompt_frame, get_prompt_input_element, hm, hl]

/-- Witness for C3: the selector lives only in the single iframe. -/
theorem locate_unique_context_witness :
    switch_to_prompt_frame ⟨false, [⟨true, some true⟩]⟩ = (true, Ctx.frame 0) ∧
    get_prompt_input_element ⟨false, [⟨true, some true⟩]⟩ =
      (Except.ok (Ctx.frame 0), Ctx.frame 0) :=
  locate_unique_context ⟨false, [⟨true, some true⟩]⟩ (Ctx.frame 0) (by decide) (by decide)

/-- C4: when the selector is present in no searched context,
`switch_to_prompt_frame` returns False and `_get_prompt_input_element`
raises its not-found error, each with the main document active; and on
every failure exit of either locator the main document is the active
context. -/
theorem locate_nowhere_notfound (p : PageState) :
    (presentCtxs p = [] →
      switch_to_prompt_frame p = (false, Ctx.main) ∧
      (get_prompt_input_element p).1 =
        Except.error
          "Could not locate prompt input element in default content or any iframes." ∧
      (get_prompt_input_element p).2 = Ctx.main) ∧
    ((switch_to_prompt_frame p).1 = false → (switch_to_prompt_frame p).2 = Ctx.main) ∧
    (∀ e, (get_prompt_input_element p).1 = Except.error e →
      (get_prompt_input_element p).2 = Ctx.main) := by
  refine ⟨fun h => ?_, fun h => ?_, fun e he => ?_⟩
  · have hm : p.mainHas = false := by
      by_contra hmc
      have hmt : p.mainHas = true := by simpa using hmc
      simp [presentCtxs, hmt] at h
    have h' : framePresentCtxs p.frames 0 = [] := by
      simpa [presentCtxs, hm] using h
    have hl := framesLoop_of_presentCtxs_nil p.frames 0 h'
    simp [switch_to_prompt_frame, get_prompt_input_element, hm, hl]
  · by_cases hm : p.mainHas
    · simp [switch_to_prompt_frame, hm] at h
    · have hs : switch_to_prompt_frame p = framesLoop p.frames 0 := by
        simp [switch_to_prompt_frame, hm]
      rw [hs] at h ⊢
      exact framesLoop_false_ctx_main p.frames 0 h
  · by_cases hm : p.mainHas
    · simp [get_prompt_input_element, hm] at he
    · rcases hfl : framesLoop p.frames 0 with ⟨b, c⟩
      cases b with
      | false => simp [get_prompt_input_element, hm, hfl]
      | true => simp [get_prompt_input_element, hm, hfl] at he

/-- Witness for C4: one iframe, selector present nowhere. -/
theorem locate_nowhere_notfound_witness :
    switch_to_prompt_frame ⟨false, [⟨true, some false⟩]⟩ = (false, Ctx.main) :=
  ((locate_nowhere_notfound ⟨false, [⟨true, some false⟩]⟩).1 (by decide)).1

/-- C5: a per-frame exception (failing switch or raising lookup) is
swallowed and treated exactly as "selector not present in this frame":
the search continues with the next iframe and no per-frame exception
aborts the overall search. -/
theorem locate_frame_error_skipped (m : Bool) (pre post : List FrameSpec) (f : FrameSpec)
    (hf : f.switchOk = false ∨ f.found = none) :
    switch_to_prompt_frame ⟨m, pre ++ f :: post⟩ =
      switch_to_prompt_frame ⟨m, pre ++ ⟨true, some false⟩ :: post⟩ := by
  cases m with
  | false =>
    simpa [switch_to_prompt_frame] using framesLoop_erroring_frame_skipped f hf post pre 0
  | true => simp [switch_to_prompt_frame]

/-- Witness for C5: a single iframe whose switch raises. -/
theorem locate_frame_error_skipped_witness :
    switch_to_prompt_frame ⟨false, [] ++ FrameSpec.mk false (some true) :: []⟩ =
      switch_to_prompt_frame ⟨false, [] ++ FrameSpec.mk true (some false) :: []⟩ :=
  locate_frame_error_skipped false [] [] ⟨false, some true⟩ (Or.inl rfl)

/-! ## Cookie lemmas -/

theorem getVal_append (k : String) (a b : CookieRec) :
    getVal k (a ++ b) =
      match getVal k a with
      | some v => some v
      | none => getVal k b := by
  induction a with
  | nil => simp [getVal]
  | cons p rest ih =>
    rcases p with ⟨k', v⟩
    by_cases hk : k' = k
    · simp [getVal, hk]
    · simp [getVal, hk, ih]

theorem getVal_eraseKey_self (k : String) (c : CookieRec) :
    getVal k (eraseKey c k) = none := by
  induction c with
  | nil => rfl
  | cons p rest ih =>
    rcases p with ⟨k', v⟩
    by_cases hk : k' = k
    · simpa [eraseKey, hk] using ih
    · simpa [eraseKey, getVal, hk] using ih

theorem getVal_eraseKey_ne (k k' : String) (h : k' ≠ k) (c : CookieRec) :
    getVal k (eraseKey c k') = getVal k c := by
  induction c with
  | nil => rfl
  | cons p rest ih =>
    rcases p with ⟨k'', v⟩
    have hstep : eraseKey ((k'', v) :: rest) k' =
        if k'' = k' then eraseKey rest k' else (k'', v) :: eraseKey rest k' := by
      by_cases h2 : k'' = k'
      · simp [eraseKey, List.filter_cons, h2]
      · simp [eraseKey, List.filter_cons, h2]
    rw [hstep]
    by_cases h2 : k'' = k'
    · rw [if_pos h2, ih]
      have h3 : k'' ≠ k := by rw [h2]; exact h
      simp [getVal, h3]
    · rw [if_neg h2]
      by_cases h4 : k'' = k
      · simp [getVal, h4]
      · simp [getVal, h4, ih]

theorem getVal_setVal_self (k v : String) (c : CookieRec) :
    getVal k (setVal c k v) = some v := by
  rw [setVal, getVal_append, getVal_eraseKey_self]
  simp [getVal]

theorem getVal_setVal_ne (k k' v : String) (h : k' ≠ k) (c : CookieRec) :
    getVal k (setVal c k' v) = getVal k c := by
  rw [setVal, getVal_append]
  rw [getVal_eraseKey_ne k k' h c]
  cases hg : getVal k c with
  | some w => rfl
  | none => simp [getVal, h]

theorem getVal_filter_key (k : String) (q : String → Bool) (c : CookieRec) :
    getVal k (c.filter (fun p => q p.1)) = if q k then getVal k c else none := by
  induction c with
  | nil => simp [getVal]
  | cons p rest ih =>
    rcases p with ⟨k', v⟩
    by_cases hk : k' = k
    · subst hk
      cases hq : q k' with
      | true => simp [List.filter_cons, hq, getVal, ih]
      | false => simp [List.filter_cons, hq, getVal, ih]
    · cases hq : q k' with
      | true => simp [List.filter_cons, hq, getVal, hk, ih]
      | false => simp [List.filter_cons, hq, getVal, hk, ih]

theorem renameExpires_getVal_other (k : String) (h1 : k ≠ "expires") (h2 : k ≠ "expiry")
    (c : CookieRec) : getVal k (renameExpires c) = getVal k c := by
  unfold renameExpires
  cases hg : getVal "expires" c with
  | none => rfl
  | some v =>
    rw [getVal_setVal_ne k "expiry" v (fun h => h2 (h ▸ rfl)) _]
    exact getVal_eraseKey_ne k "expires" (fun h => h1 (h ▸ rfl)) c

theorem fixDomain_getVal_other (k : String) (h : k ≠ "domain") (c : CookieRec) :
    getVal k (fixDomain c) = getVal k c := by
  unfold fixDomain
  split
  · exact getVal_setVal_ne k "domain" _ (fun hh => h (hh ▸ rfl)) c
  · rfl

/-! ## Cookie claim -/

/-- C9: for every cookie record, a domain starting with "." is
rewritten to "www.bing.com"; an "expires" field is removed and its
value stored under "expiry"; every other field keeps its value, with
exactly the keys outside the allowed set dropped. -/
theorem load_cookies_record_rewrite (c : CookieRec) :
    (∀ d, getVal "domain" c = some d → strStartsWith d "." = true →
      getVal "domain" (processCookie c) = some "www.bing.com") ∧
    (∀ v, getVal "expires" c = some v →
      getVal "expires" (processCookie c) = none ∧
      getVal "expiry" (processCookie c) = some v) ∧
    (∀ k, k ≠ "domain" → k ≠ "expires" → k ≠ "expiry" →
      getVal k (processCookie c) =
        if allowedKeys.contains k then getVal k c else none) := by
  have hfilter : ∀ (k : String) (c' : CookieRec),
      getVal k (c'.filter (fun p => allowedKeys.contains p.1)) =
        if allowedKeys.contains k then getVal k c' else none :=
    fun k c' => getVal_filter_key k (fun s => allowedKeys.contains s) c'
  refine ⟨fun d hd hdot => ?_, fun v hv => ?_, fun k h1 h2 h3 => ?_⟩
  · have hd1 : getVal "domain" (renameExpires c) = some d := by
      rw [renameExpires_getVal_other "domain" (by decide) (by decide) c]
      exact hd
    have hfix : getVal "domain" (fixDomain (renameExpires c)) = some "www.bing.com" := by
      unfold fixDomain
      rw [if_pos (by rw [hd1]; simpa using hdot)]
      exact getVal_setVal_self "domain" "www.bing.com" _
    unfold processCookie
    rw [hfilter, hfix, if_pos (by decide)]
  · have he1 : getVal "expiry" (renameExpires c) = some v := by
      unfold renameExpires
      rw [hv]
      exact getVal_setVal_self "expiry" v _
    have he2 : getVal "expiry" (fixDomain (renameExpires c)) = some v := by
      rw [fixDomain_getVal_other "expiry" (by decide) _]
      exact he1
    constructor
    · unfold processCookie
      rw [hfilter, if_neg (by decide)]
    · unfold processCookie
      rw [hfilter, he2, if_pos (by decide)]
  · have ho2 : getVal k (fixDomain (renameExpires c)) = getVal k c := by
      rw [fixDomain_getVal_other k h1 _]
      exact renameExpires_getVal_other k h2 h3 c
    unfold processCookie
    rw [hfilter, ho2]

/-- Witness for C9 at a record with a dotted domain, an expires field
and a disallowed key. -/
theorem load_cookies_record_rewrite_witness :
    getVal "domain"
        (processCookie [("domain", ".bing.com"), ("expires", "123"), ("HttpOnly", "x")]) =
      some "www.bing.com" ∧
    getVal "expires"
        (processCookie [("domain", ".bing.com"), ("expires", "123"), ("HttpOnly", "x")]) =
      none ∧
    getVal "expiry"
        (processCookie [("domain", ".bing.com"), ("expires", "123"), ("HttpOnly", "x")]) =
      some "123" :=
  ⟨(load_cookies_record_rewrite _).1 ".bing.com" (by decide) (by decide),
   ((load_cookies_record_rewrite _).2.1 "123" (by decide)).1,
   ((load_cookies_record_rewrite _).2.1 "123" (by decide)).2⟩

/-! ## Kebab-case lemmas: character level -/

theorem bool_eq_of_iff {a b : Bool} (h : a = true ↔ b = true) : a = b := by
  cases a <;> cases b <;> simp_all

theorem char_toNat_inj {a b : Char} (h : a.toNat = b.toNat) : a = b :=
  Char.eq_of_val_eq (UInt32.ext h)

theorem toNat_ofNat_valid (n : Nat) (h : n < 55296) : (Char.ofNat n).toNat = n := by
  have hv : n.isValidChar := Or.inl h
  simp [Char.ofNat, hv, Char.ofNatAux, Char.toNat, UInt32.toNat, BitVec.toNat_ofNatLt]

theorem asciiLowerChar_toNat (c : Char) :
    (asciiLowerChar c).toNat =
      if 65 ≤ c.toNat ∧ c.toNat ≤ 90 then c.toNat + 32 else c.toNat := by
  unfold asciiLowerChar
  by_cases h : 65 ≤ c.toNat ∧ c.toNat ≤ 90
  · rw [if_pos (by simp [h.1, h.2]), if_pos h]
    have hlt : c.toNat + 32 < 55296 := by
      have := h.2
      omega
    exact toNat_ofNat_valid _ hlt
  · rw [if_neg (by simpa using fun h1 h2 => h ⟨h1, h2⟩), if_neg h]

theorem isWordChar_iff (c : Char) :
    isWordChar c = true ↔
      (97 ≤ c.toNat ∧ c.toNat ≤ 122) ∨ (65 ≤ c.toNat ∧ c.toNat ≤ 90) ∨
      (48 ≤ c.toNat ∧ c.toNat ≤ 57) ∨ c.toNat = 95 ∨ c.toNat = 304 := by
  simp [isWordChar]
  tauto

theorem isSpaceChar_iff (c : Char) :
    isSpaceChar c = true ↔
      c.toNat = 32 ∨ c.toNat = 9 ∨ c.toNat = 10 ∨ c.toNat = 13 ∨
      c.toNat = 11 ∨ c.toNat = 12 ∨ (28 ≤ c.toNat ∧ c.toNat ≤ 31) := by
  simp [isSpaceChar]
  tauto

theorem isDashSpace_iff (c : Char) :
    isDashSpace c = true ↔
      c.toNat = 45 ∨ c.toNat = 32 ∨ c.toNat = 9 ∨ c.toNat = 10 ∨ c.toNat = 13 ∨
      c.toNat = 11 ∨ c.toNat = 12 ∨ (28 ≤ c.toNat ∧ c.toNat ≤ 31) := by
  simp [isDashSpace, isSpaceChar]
  tauto

theorem isWordChar_asciiLowerChar (c : Char) :
    isWordChar (asciiLowerChar c) = isWordChar c := by
  apply bool_eq_of_iff
  rw [isWordChar_iff, isWordChar_iff, asciiLowerChar_toNat]
  split_ifs with h
  · omega
  · omega

theorem isDashSpace_asciiLowerChar (c : Char) :
    isDashSpace (asciiLowerChar c) = isDashSpace c := by
  apply bool_eq_of_iff
  rw [isDashSpace_iff, isDashSpace_iff, asciiLowerChar_toNat]
  split_ifs with h
  · omega
  · omega

theorem asciiLowerChar_fix (c : Char) :
    asciiLowerChar (asciiLowerChar c) = asciiLowerChar c := by
  apply char_toNat_inj
  rw [asciiLowerChar_toNat, asciiLowerChar_toNat]
  split_ifs <;> omega

theorem asciiLowerChar_lt_128 (c : Char) (h : c.toNat < 128) :
    (asciiLowerChar c).toNat < 128 := by
  rw [asciiLowerChar_toNat]
  split_ifs <;> omega

theorem lowerCharStr_of_ascii (c : Char) (h : c.toNat < 128) :
    lowerCharStr c = [asciiLowerChar c] := by
  have h304 : ¬((c.toNat == 304) = true) := by
    simp
    omega
  unfold lowerCharStr asciiLowerChar
  by_cases h1 : (65 ≤ c.toNat && c.toNat ≤ 90) = true
  · rw [if_pos h1, if_pos h1]
  · rw [if_neg h1, if_neg h1, if_neg h304]

theorem strLower_eq_map_of_ascii (l : List Char) (h : ∀ c ∈ l, c.toNat < 128) :
    strLower l = l.map asciiLowerChar := by
  induction l with
  | nil => rfl
  | cons a rest ih =>
    rw [strLower, List.map_cons, lowerCharStr_of_ascii a (h a (by simp)),
        ih (fun c hc => h c (by simp [hc]))]
    rfl

theorem isWordChar_not_dashspace (c : Char) (h : isWordChar c = true) :
    isDashSpace c = false := by
  rw [isWordChar_iff] at h
  by_contra hcon
  have hd : isDashSpace c = true := by simpa using hcon
  rw [isDashSpace_iff] at hd
  omega

/-! ## Kebab-case lemmas: run-collapsing structure -/

theorem collapseRuns_cons_ds (a : Char) (rest : List Char) (hd : isDashSpace a = true) :
    collapseRuns true (a :: rest) = collapseRuns true rest ∧
    collapseRuns false (a :: rest) = '-' :: collapseRuns true rest := by
  constructor <;> simp [collapseRuns, hd]

theorem collapseRuns_cons_nds (a : Char) (rest : List Char) (b : Bool)
    (hd : isDashSpace a = false) :
    collapseRuns b (a :: rest) = a :: collapseRuns false rest := by
  simp [collapseRuns, hd]

theorem mem_collapseRuns (l : List Char) :
    ∀ (b : Bool) (c : Char), c ∈ collapseRuns b l →
      c = '-' ∨ (c ∈ l ∧ isDashSpace c = false) := by
  induction l with
  | nil => intro b c h; simp [collapseRuns] at h
  | cons a rest ih =>
    intro b c h
    by_cases hd : isDashSpace a = true
    · cases b with
      | true =>
        rw [(collapseRuns_cons_ds a rest hd).1] at h
        rcases ih true c h with h1 | h2
        · exact Or.inl h1
        · exact Or.inr ⟨List.mem_cons_of_mem a h2.1, h2.2⟩
      | false =>
        rw [(collapseRuns_cons_ds a rest hd).2] at h
        rcases List.mem_cons.mp h with h1 | h1
        · exact Or.inl h1
        · rcases ih true c h1 with h2 | h3
          · exact Or.inl h2
          · exact Or.inr ⟨List.mem_cons_of_mem a h3.1, h3.2⟩
    · have hd' : isDashSpace a = false := by simpa using hd
      rw [collapseRuns_cons_nds a rest b hd'] at h
      rcases List.mem_cons.mp h with h1 | h1
      · exact Or.inr ⟨by simp [h1], h1 ▸ hd'⟩
      · rcases ih false c h1 with h2 | h3
        · exact Or.inl h2
        · exact Or.inr ⟨List.mem_cons_of_mem a h3.1, h3.2⟩

theorem collapseRuns_head_true (l : List Char) :
    ∀ c r, collapseRuns true l = c :: r → isDashSpace c = false := by
  induction l with
  | nil => intro c r h; simp [collapseRuns] at h
  | cons a rest ih =>
    intro c r h
    by_cases hd : isDashSpace a = true
    · rw [(collapseRuns_cons_ds a rest hd).1] at h
      exact ih c r h
    · have hd' : isDashSpace a = false := by simpa using hd
      rw [collapseRuns_cons_nds a rest true hd'] at h
      obtain ⟨h1, _⟩ := List.cons_eq_cons.mp h
      rw [← h1]
      exact hd'

theorem chain_collapseRuns (l : List Char) :
    ∀ b, List.Chain'
      (fun x y => ¬(isDashSpace x = true ∧ isDashSpace y = true)) (collapseRuns b l) := by
  induction l with
  | nil => intro b; simp [collapseRuns]
  | cons a rest ih =>
    intro b
    by_cases hd : isDashSpace a = true
    · cases b with
      | true =>
        rw [(collapseRuns_cons_ds a rest hd).1]
        exact ih true
      | false =>
        rw [(collapseRuns_cons_ds a rest hd).2]
        refine List.Chain'.cons' (ih true) ?_
        intro y hy hcon
        cases hl : collapseRuns true rest with
        | nil => rw [hl] at hy; simp at hy
        | cons c r =>
          rw [hl] at hy
          simp only [List.head?_cons, Option.mem_some_iff] at hy
          have hcf := collapseRuns_head_true rest c r hl
          rw [hy] at hcf
          rw [hcf] at hcon
          exact absurd hcon.2 (by simp)
    · have hd' : isDashSpace a = false := by simpa using hd
      rw [collapseRuns_cons_nds a rest b hd']
      refine List.Chain'.cons' (ih false) ?_
      intro y hy hcon
      rw [hd'] at hcon
      exact absurd hcon.1 (by simp)

theorem collapseRuns_id (l : List Char)
    (hds : ∀ c ∈ l, isDashSpace c = true → c = '-')
    (hch : List.Chain'
      (fun x y => ¬(isDashSpace x = true ∧ isDashSpace y = true)) l) :
    collapseRuns false l = l ∧
    ((∀ c ∈ l.head?, isDashSpace c = false) → collapseRuns true l = l) := by
  induction l with
  | nil => exact ⟨rfl, fun _ => rfl⟩
  | cons a rest ih =>
    have hds' : ∀ c ∈ rest, isDashSpace c = true → c = '-' :=
      fun c hc => hds c (List.mem_cons_of_mem a hc)
    obtain ⟨ih1, ih2⟩ := ih hds' hch.tail
    by_cases hd : isDashSpace a = true
    · have ha : a = '-' := hds a (List.mem_cons_self a rest) hd
      have hheadrest : ∀ c ∈ rest.head?, isDashSpace c = false := by
        intro c hc
        cases hrest : rest with
        | nil => rw [hrest] at hc; simp at hc
        | cons b r =>
          rw [hrest] at hc
          simp only [List.head?_cons, Option.mem_some_iff] at hc
          have hrel := (List.chain'_cons.mp (hrest ▸ hch)).1
          rw [← hc]
          by_contra hcon
          exact hrel ⟨hd, by simpa using hcon⟩
      constructor
      · rw [(collapseRuns_cons_ds a rest hd).2, ih2 hheadrest, ← ha]
      · intro hhead
        have := hhead a (by simp)
        rw [hd] at this
        simp at this
    · have hd' : isDashSpace a = false := by simpa using hd
      refine ⟨?_, fun _ => ?_⟩
      · rw [collapseRuns_cons_nds a rest false hd', ih1]
      · rw [collapseRuns_cons_nds a rest true hd', ih1]

/-! ## Kebab-case lemmas: identity of each pass on normalised output -/

theorem dropWhile_id_of_none (p : Char → Bool) (l : List Char)
    (h : ∀ c ∈ l, p c = false) : l.dropWhile p = l := by
  cases l with
  | nil => rfl
  | cons a rest =>
    rw [List.dropWhile_cons, if_neg (by simp [h a (by simp)])]

theorem stripChars_id (l : List Char) (h : ∀ c ∈ l, isSpaceChar c = false) :
    stripChars l = l := by
  unfold stripChars
  rw [dropWhile_id_of_none isSpaceChar l h]
  rw [dropWhile_id_of_none isSpaceChar l.reverse (fun c hc => h c (List.mem_reverse.mp hc))]
  exact List.reverse_reverse l

theorem map_asciiLowerChar_id (l : List Char) (h : ∀ c ∈ l, asciiLowerChar c = c) :
    l.map asciiLowerChar = l := by
  induction l with
  | nil => rfl
  | cons a rest ih =>
    rw [List.map_cons, h a (by simp), ih (fun c hc => h c (by simp [hc]))]

theorem mem_of_mem_dropWhile (p : Char → Bool) (c : Char) :
    ∀ l : List Char, c ∈ l.dropWhile p → c ∈ l := by
  intro l
  induction l with
  | nil => intro h; simp at h
  | cons a rest ih =>
    intro h
    rw [List.dropWhile_cons] at h
    by_cases hp : p a = true
    · rw [if_pos hp] at h
      exact List.mem_cons_of_mem a (ih h)
    · rw [if_neg hp] at h
      exact h

theorem mem_of_mem_stripChars (c : Char) (l : List Char) (h : c ∈ stripChars l) :
    c ∈ l := by
  unfold stripChars at h
  have h1 := List.mem_reverse.mp h
  have h2 := mem_of_mem_dropWhile isSpaceChar c _ h1
  have h3 := List.mem_reverse.mp h2
  exact mem_of_mem_dropWhile isSpaceChar c l h3

theorem mem_of_mem_removeDisallowed (c : Char) (l : List Char)
    (h : c ∈ removeDisallowed l) : c ∈ l := by
  unfold removeDisallowed at h
  exact List.mem_of_mem_filter h

/-! ## Kebab-case claim -/

/-- C10 counterexample: `to_kebab_case` is not idempotent on every
input string.  On the one-character input U+0130 (`İ`) the first
application yields `i` + U+0307 (`str.lower` expands `İ` to two
characters), and a second application deletes the combining mark
U+0307, which is outside `\w`, giving plain `i`. -/
theorem to_kebab_case_not_idem_unicode :
    to_kebab_case (to_kebab_case [Char.ofNat 304]) ≠ to_kebab_case [Char.ofNat 304] := by
  decide

/-- C10 (amended): `to_kebab_case` is idempotent on every input string
of ASCII characters (code points below 128), so folder and file names
derived from ASCII prompts are stable under re-normalisation; on
general Unicode input idempotence fails (witness U+0130). -/
theorem to_kebab_case_idem_ascii (s : List Char) (hs : ∀ c ∈ s, c.toNat < 128) :
    to_kebab_case (to_kebab_case s) = to_kebab_case s := by
  have hm_ascii : ∀ c ∈ collapseRuns false (removeDisallowed (stripChars s)),
      c.toNat < 128 := by
    intro c hc
    rcases mem_collapseRuns _ false c hc with h1 | h2
    · rw [h1]; decide
    · exact hs c (mem_of_mem_stripChars c s
        (mem_of_mem_removeDisallowed c (stripChars s) h2.1))
  have hlow : to_kebab_case s =
      (collapseRuns false (removeDisallowed (stripChars s))).map asciiLowerChar := by
    rw [show to_kebab_case s =
          strLower (collapseRuns false (removeDisallowed (stripChars s))) from rfl]
    exact strLower_eq_map_of_ascii _ hm_ascii
  have hout : ∀ c ∈ to_kebab_case s,
      (c = '-' ∨ isWordChar c = true) ∧ asciiLowerChar c = c ∧ c.toNat < 128 := by
    intro c hc
    rw [hlow] at hc
    obtain ⟨d, hd, hdc⟩ := List.mem_map.mp hc
    rcases mem_collapseRuns _ false d hd with h1 | h2
    · rw [← hdc, h1]
      exact ⟨Or.inl (by decide), by decide, by decide⟩
    · have hdm : d ∈ removeDisallowed (stripChars s) := h2.1
      have hkeep : (isWordChar d || isSpaceChar d || d.toNat == 45) = true := by
        unfold removeDisallowed at hdm
        simpa using (List.mem_filter.mp hdm).2
      have hw : isWordChar d = true := by
        have hnds : isDashSpace d = false := h2.2
        have hnsp : isSpaceChar d = false := by
          by_contra hcon
          have : isDashSpace d = true := by
            simp [isDashSpace]
            right
            simpa using hcon
          rw [this] at hnds
          simp at hnds
        have hn45 : (d.toNat == 45) = false := by
          by_contra hcon
          have : isDashSpace d = true := by
            simp only [isDashSpace, Bool.or_eq_true]
            left
            simpa using hcon
          rw [this] at hnds
          simp at hnds
        simpa [hnsp, hn45] using hkeep
      rw [← hdc]
      exact ⟨Or.inr (by rw [isWordChar_asciiLowerChar]; exact hw),
             asciiLowerChar_fix d, asciiLowerChar_lt_128 d (hm_ascii d hd)⟩
  have hds : ∀ c ∈ to_kebab_case s, isDashSpace c = true → c = '-' := by
    intro c hc hdc
    rcases (hout c hc).1 with h1 | h2
    · exact h1
    · rw [isWordChar_not_dashspace c h2] at hdc
      simp at hdc
  have hns : ∀ c ∈ to_kebab_case s, isSpaceChar c = false := by
    intro c hc
    by_contra hcon
    have hsp : isSpaceChar c = true := by simpa using hcon
    have hdsp : isDashSpace c = true := by simp [isDashSpace, hsp]
    have hcd := hds c hc hdsp
    rw [hcd] at hsp
    exact absurd hsp (by decide)
  have hchain : List.Chain'
      (fun x y => ¬(isDashSpace x = true ∧ isDashSpace y = true)) (to_kebab_case s) := by
    rw [hlow, List.chain'_map]
    refine (chain_collapseRuns _ false).imp ?_
    intro a b hab hcon
    rw [isDashSpace_asciiLowerChar, isDashSpace_asciiLowerChar] at hcon
    exact hab hcon
  have ho_ascii : ∀ c ∈ to_kebab_case s, c.toNat < 128 :=
    fun c hc => (hout c hc).2.2
  rw [show to_kebab_case (to_kebab_case s) =
        strLower (collapseRuns false (removeDisallowed (stripChars (to_kebab_case s))))
      from rfl]
  rw [stripChars_id _ hns]
  rw [show removeDisallowed (to_kebab_case s) = to_kebab_case s from
        List.filter_eq_self.mpr (by
          intro c hc
          rcases (hout c hc).1 with h1 | h2
          · rw [h1]; decide
          · simp [h2])]
  rw [(collapseRuns_id _ hds hchain).1]
  rw [strLower_eq_map_of_ascii _ ho_ascii]
  exact map_asciiLowerChar_id _ (fun c hc => (hout c hc).2.1)

/-- Witness for the amended C10 at a concrete ASCII prompt. -/
theorem to_kebab_case_idem_ascii_witness :
    to_kebab_case (to_kebab_case ['H', 'i', ' ', 'A']) =
      to_kebab_case ['H', 'i', ' ', 'A'] :=
  to_kebab_case_idem_ascii ['H', 'i', ' ', 'A'] (by decide)
